import Mathlib

/-! Verification of the WAVM runtime garbage collector
(Source/Runtime/ObjectGC.cpp).

The collector keeps a global registry of all runtime objects
(`GCGlobals::allObjects`), a per-object root-reference counter, and reclaims
unreached objects with a mark phase over an explicit work list followed by a
sweep phase (erase from the registry, finalize, delete).  Object identities
are modelled as natural numbers; the iteration order of the C++
`std::set<ObjectImpl*>` becomes the ascending order on `Nat`. -/

namespace WAVMGC

/-- Per-kind payload of a runtime object: exactly the fields that
`collectGarbage` reads when gathering child references (ObjectGC.cpp lines
76-135).  Every C++ `Object*` field is an `Option Nat`, `none` being null. -/
inductive ObjData where
  | function (moduleInstance : Option Nat)
  | table (compartment : Option Nat) (elements : List (Option Nat))
  | memory (compartment : Option Nat)
  | global (compartment : Option Nat)
  | module (compartment : Option Nat)
      (functionDefs functions tables memories globals : List (Option Nat))
      (defaultMemory defaultTable : Option Nat)
  | context (compartment : Option Nat)
  | compartment (wavmIntrinsics : Option Nat)
  | exceptionType
  deriving DecidableEq

/-- Global collector state: `allObjects` is `GCGlobals::allObjects`, `heap`
gives each object identity its current fields, and `numRootReferences` is the
per-object root counter (`ObjectImpl::numRootReferences`; its exact integer
width is declared outside this translation unit, so it is modelled as an
unbounded integer — the decrement in `removeGCRoot` is unchecked, exactly as
in the source). -/
structure GCState where
  allObjects : Finset Nat
  heap : Nat → ObjData
  numRootReferences : Nat → Int

/-- ObjectGC.cpp lines 29-35, `ObjectImpl::ObjectImpl`: a newly constructed
object starts with zero root references and is inserted into the global set
by `std::set::insert`, which leaves the set unchanged when the key is already
present. -/
def registerObject (s : GCState) (o : Nat) (d : ObjData) : GCState :=
  { allObjects := insert o s.allObjects
    heap := Function.update s.heap o d
    numRootReferences := Function.update s.numRootReferences o 0 }

/-- ObjectGC.cpp lines 37-41: `addGCRoot` increments the counter; the body
takes no lock and performs no overflow check. -/
def addGCRoot (s : GCState) (o : Nat) : GCState :=
  { s with numRootReferences :=
      Function.update s.numRootReferences o (s.numRootReferences o + 1) }

/-- ObjectGC.cpp lines 43-47: `removeGCRoot` decrements the counter; the body
takes no lock and performs no underflow check. -/
def removeGCRoot (s : GCState) (o : Nat) : GCState :=
  { s with numRootReferences :=
      Function.update s.numRootReferences o (s.numRootReferences o - 1) }

/-- ObjectGC.cpp lines 76-135: the `switch(scanObject->kind)` that gathers the
child references of one object, in the exact order the C++ vector ends up
holding them (for `module`, the repeated `insert(childReferences.begin(),...)`
calls put the later-inserted ranges in front). -/
def childReferences : ObjData → List (Option Nat)
  | .function moduleInstance => [moduleInstance]
  | .table compartment elements => compartment :: elements
  | .memory compartment => [compartment]
  | .global compartment => [compartment]
  | .module compartment functionDefs functions tables memories globals
      defaultMemory defaultTable =>
      globals ++ memories ++ tables ++ functions ++ functionDefs ++
        [compartment, defaultMemory, defaultTable]
  | .context compartment => [compartment]
  | .compartment wavmIntrinsics => [wavmIntrinsics]
  | .exceptionType => []

/-- Transcribed from the spec's words (the illustrative per-kind edge sets),
for comparison with `childReferences`: kind → referenced objects. -/
def specDeclaredEdges : ObjData → List (Option Nat)
  | .function moduleInstance => [moduleInstance]
  | .table compartment elements => compartment :: elements
  | .memory compartment => [compartment]
  | .global compartment => [compartment]
  | .module compartment functionDefs functions tables memories globals
      defaultMemory defaultTable =>
      compartment ::
        (functions ++ functionDefs ++ tables ++ memories ++ globals ++
          [defaultMemory, defaultTable])
  | .context compartment => [compartment]
  | .compartment wavmIntrinsics => [wavmIntrinsics]
  | .exceptionType => []

/-- State of the mark loop: `referencedObjects` and `pendingScanObjects` are
the locals of `collectGarbage` (lines 55-56); `pendingScanObjects` is the
C++ `std::vector` viewed with its back — the stack top — as the list head.
`enqueuedOrder` is a ghost audit trail recording each object in the order it
is enqueued for scanning; it influences nothing. -/
structure MarkState where
  referencedObjects : Finset Nat
  pendingScanObjects : List Nat
  enqueuedOrder : List Nat

/-- ObjectGC.cpp lines 137-145: the loop over `childReferences` — a null
reference is skipped, a reference already in `referencedObjects` is skipped,
and a new reference is inserted into the set and pushed for scanning. -/
def scanChildren (ms : MarkState) : List (Option Nat) → MarkState
  | [] => ms
  | none :: rest => scanChildren ms rest
  | some r :: rest =>
      if r ∈ ms.referencedObjects then scanChildren ms rest
      else
        scanChildren
          ⟨insert r ms.referencedObjects, r :: ms.pendingScanObjects,
            ms.enqueuedOrder ++ [r]⟩ rest

/-- Elements of a finite set of object identities in ascending order — the
iteration order of the C++ `std::set` — computed structurally so that
concrete instances reduce inside the kernel. -/
def ascendingElems (s : Finset Nat) : List Nat :=
  (List.range (s.sup id + 1)).filter fun n => decide (n ∈ s)

/-- ObjectGC.cpp lines 58-68: the rooted objects, in the ascending iteration
order of the global `std::set`. -/
def rootsAscending (s : GCState) : List Nat :=
  (ascendingElems s.allObjects).filter fun o => decide (0 < s.numRootReferences o)

/-- Mark-phase initialization (lines 58-68): every object with a positive
root count is put in `referencedObjects` and pushed onto the work list, so
the last root pushed is on top of the stack. -/
def initMark (s : GCState) : MarkState :=
  { referencedObjects := s.allObjects.filter fun o => 0 < s.numRootReferences o
    pendingScanObjects := (rootsAscending s).reverse
    enqueuedOrder := rootsAscending s }

/-- Iteration bound for the mark loop on a registry of `card` objects: the
measure `2*(card - reached) + pending length` starts at most `2*card` and
strictly decreases each iteration, so this much fuel always suffices. -/
def collectFuel (s : GCState) : Nat := 2 * s.allObjects.card + 1

/-- ObjectGC.cpp lines 71-146: the mark-phase work-list loop.  `fuel` bounds
the number of iterations; `collectFuel` is proven sufficient whenever every
declared edge stays inside the registry. -/
def markLoop (heap : Nat → ObjData) : Nat → MarkState → MarkState
  | 0, ms => ms
  | fuel + 1, ms =>
    match ms.pendingScanObjects with
    | [] => ms
    | o :: rest =>
        markLoop heap fuel
          (scanChildren ⟨ms.referencedObjects, rest, ms.enqueuedOrder⟩
            (childReferences (heap o)))

/-- The mark-loop state when the work list has been exhausted. -/
def markReached (s : GCState) : MarkState :=
  markLoop s.heap (collectFuel s) (initMark s)

/-- ObjectGC.cpp lines 148-161: the sweep iterates the ordered global set and
erases every object that was not reached, collecting them in that order. -/
def garbageList (s : GCState) : List Nat :=
  (ascendingElems s.allObjects).filter fun o =>
    decide (o ∉ (markReached s).referencedObjects)

/-- Observable per-object actions of the sweep. -/
inductive GCEvent where
  | remove (o : Nat)
  | finalize (o : Nat)
  | destroy (o : Nat)
  deriving DecidableEq

/-- ObjectGC.cpp lines 148-167: each unreached object is erased from the
registry and then immediately finalized, in ascending set order; afterwards
every finalized object is deleted, in the same order. -/
def sweepEvents (gl : List Nat) : List GCEvent :=
  (gl.flatMap fun o => [GCEvent.remove o, GCEvent.finalize o]) ++
    gl.map GCEvent.destroy

/-- Outcome of one `collectGarbage` call: the new global state, the ordered
sweep events, and the quantities reported by the metrics log line
(lines 169-171). -/
structure CollectResult where
  state : GCState
  events : List GCEvent
  numRoots : Nat
  numObjects : Nat
  numGarbage : Nat

/-- ObjectGC.cpp lines 49-172, `collectGarbage`: mark from the rooted objects,
then sweep everything unreached; the log reports the root count, the total
object count before the sweep, and the garbage count. -/
def collectGarbage (s : GCState) : CollectResult :=
  { state :=
      { s with allObjects :=
          s.allObjects.filter fun o => o ∈ (markReached s).referencedObjects }
    events := sweepEvents (garbageList s)
    numRoots := (s.allObjects.filter fun o => 0 < s.numRootReferences o).card
    numObjects := s.allObjects.card
    numGarbage := (garbageList s).length }

/-- Invariant I1 of the running program: every declared non-null edge from a
registered object points at a registered object (all C++ `Object*` values are
live registered objects). -/
def ClosedGraph (s : GCState) : Prop :=
  ∀ o ∈ s.allObjects,
    ∀ c ∈ (childReferences (s.heap o)).filterMap id, c ∈ s.allObjects

instance (s : GCState) : Decidable (ClosedGraph s) :=
  inferInstanceAs
    (Decidable (∀ o ∈ s.allObjects,
      ∀ c ∈ (childReferences (s.heap o)).filterMap id, c ∈ s.allObjects))

/-- Reachability by a finite chain of declared edges from an object whose
root counter is positive at the start of the collection. -/
inductive Reaches (s : GCState) : Nat → Prop where
  | root (o : Nat) (ho : o ∈ s.allObjects) (hr : 0 < s.numRootReferences o) :
      Reaches s o
  | step (p c : Nat) (hp : Reaches s p)
      (hc : some c ∈ childReferences (s.heap p)) : Reaches s c

/-- The four public entry points of ObjectGC.cpp. -/
inductive GCOp where
  | registerOp
  | addRootOp
  | removeRootOp
  | collectOp
  deriving DecidableEq

/-- Which entry points construct `Platform::Lock lock(...)` on the GCGlobals
mutex in their body: `ObjectImpl::ObjectImpl` (line 33) and `collectGarbage`
(line 52) do; `addGCRoot` (lines 37-41) and `removeGCRoot` (lines 43-47) do
not. -/
def acquiresRegistryMutex : GCOp → Bool
  | .registerOp => true
  | .addRootOp => false
  | .removeRootOp => false
  | .collectOp => true

/-- Concrete example graph: object 0 is a rooted table whose element slot
references object 1 (a memory); object 2 is an unreferenced module. -/
def exampleState : GCState :=
  { allObjects := {0, 1, 2}
    heap := fun n =>
      if n = 0 then .table none [some 1]
      else if n = 1 then .memory none
      else .module none [] [] [] [] [] none none
    numRootReferences := fun n => if n = 0 then 1 else 0 }

/-- Concrete cyclic graph: context 0 references compartment 1, which
references 0 back; only 0 is rooted. -/
def cycleState : GCState :=
  { allObjects := {0, 1}
    heap := fun n => if n = 0 then .context (some 1) else .compartment (some 0)
    numRootReferences := fun n => if n = 0 then 1 else 0 }

/-- Concrete one-object graph: a single unrooted, unreferenced leaf object. -/
def soloState : GCState :=
  { allObjects := {0}
    heap := fun _ => .exceptionType
    numRootReferences := fun _ => 0 }

/-- Concrete two-object graph: leaf 0 is rooted, leaf 1 is garbage. -/
def pairState : GCState :=
  { allObjects := {0, 1}
    heap := fun _ => .exceptionType
    numRootReferences := fun n => if n = 0 then 1 else 0 }

/-- Concrete empty registry. -/
def emptyState : GCState :=
  { allObjects := ∅
    heap := fun _ => .exceptionType
    numRootReferences := fun _ => 0 }

/-! ## Characterization of the child-scanning loop -/

/-- One pass of the loop at lines 137-145 prepends a block `news` of fresh
objects to the work list; those objects are exactly the non-null children not
already reached, each inserted and enqueued once. -/
lemma scanChildren_spec (cs : List (Option Nat)) (ms : MarkState) :
    ∃ news : List Nat,
      (scanChildren ms cs).referencedObjects =
        ms.referencedObjects ∪ news.toFinset ∧
      (scanChildren ms cs).pendingScanObjects =
        news ++ ms.pendingScanObjects ∧
      (scanChildren ms cs).enqueuedOrder = ms.enqueuedOrder ++ news.reverse ∧
      news.Nodup ∧
      (∀ x ∈ news, some x ∈ cs ∧ x ∉ ms.referencedObjects) ∧
      (∀ c : Nat, some c ∈ cs → c ∈ (scanChildren ms cs).referencedObjects) := by
  induction cs generalizing ms with
  | nil => exact ⟨[], by simp [scanChildren]⟩
  | cons hd tl ih =>
    cases hd with
    | none =>
      have hstep : scanChildren ms (none :: tl) = scanChildren ms tl := rfl
      obtain ⟨news, h1, h2, h3, h4, h5, h6⟩ := ih ms
      rw [hstep]
      refine ⟨news, h1, h2, h3, h4, ?_, ?_⟩
      · intro x hx
        obtain ⟨hcs, hrf⟩ := h5 x hx
        exact ⟨List.mem_cons_of_mem _ hcs, hrf⟩
      · intro c hc
        have hc' : some c ∈ tl := by simpa using hc
        exact h6 c hc'
    | some r =>
      by_cases hr : r ∈ ms.referencedObjects
      · have hstep : scanChildren ms (some r :: tl) = scanChildren ms tl := by
          simp [scanChildren, hr]
        obtain ⟨news, h1, h2, h3, h4, h5, h6⟩ := ih ms
        rw [hstep]
        refine ⟨news, h1, h2, h3, h4, ?_, ?_⟩
        · intro x hx
          obtain ⟨hcs, hrf⟩ := h5 x hx
          exact ⟨List.mem_cons_of_mem _ hcs, hrf⟩
        · intro c hc
          rcases List.mem_cons.mp hc with h | h
          · have hcr : c = r := by simpa using h
            subst hcr
            rw [h1]
            exact Finset.mem_union_left _ hr
          · exact h6 c h
      · have hstep : scanChildren ms (some r :: tl) =
            scanChildren
              ⟨insert r ms.referencedObjects, r :: ms.pendingScanObjects,
                ms.enqueuedOrder ++ [r]⟩ tl := by
          simp [scanChildren, hr]
        obtain ⟨news, h1, h2, h3, h4, h5, h6⟩ :=
          ih ⟨insert r ms.referencedObjects, r :: ms.pendingScanObjects,
            ms.enqueuedOrder ++ [r]⟩
        rw [hstep]
        refine ⟨news ++ [r], ?_, ?_, ?_, ?_, ?_, ?_⟩
        · rw [h1]
          ext x
          simp only [Finset.mem_union, Finset.mem_insert, List.toFinset_append,
            List.mem_toFinset, List.toFinset_cons, List.toFinset_nil,
            Finset.mem_singleton, Finset.mem_union]
          tauto
        · rw [h2]; simp
        · rw [h3]; simp
        · have hrnews : r ∉ news := by
            intro hmem
            exact (h5 r hmem).2 (Finset.mem_insert_self r _)
          have : news.Disjoint [r] := by
            intro a ha hb
            rcases List.mem_singleton.mp hb with hb
            subst hb
            exact hrnews ha
          exact h4.append (by simp) this
        · intro x hx
          rcases List.mem_append.mp hx with h | h
          · obtain ⟨hcs, hrf⟩ := h5 x h
            refine ⟨List.mem_cons_of_mem _ hcs, ?_⟩
            intro hxr
            exact hrf (Finset.mem_insert_of_mem hxr)
          · have hxr : x = r := List.mem_singleton.mp h
            subst hxr
            exact ⟨List.mem_cons_self _ _, hr⟩
        · intro c hc
          rcases List.mem_cons.mp hc with h | h
          · have hcr : c = r := by simpa using h
            subst hcr
            rw [h1]
            exact Finset.mem_union_left _ (Finset.mem_insert_self _ _)
          · exact h6 c h

/-! ## Unfolding equations for the mark loop -/

lemma markLoop_zero (heap : Nat → ObjData) (ms : MarkState) :
    markLoop heap 0 ms = ms := rfl

lemma markLoop_succ_nil (heap : Nat → ObjData) (fuel : Nat) (r : Finset Nat)
    (e : List Nat) : markLoop heap (fuel + 1) ⟨r, [], e⟩ = ⟨r, [], e⟩ := rfl

lemma markLoop_succ_cons (heap : Nat → ObjData) (fuel : Nat) (r : Finset Nat)
    (e : List Nat) (o : Nat) (rest : List Nat) :
    markLoop heap (fuel + 1) ⟨r, o :: rest, e⟩ =
      markLoop heap fuel
        (scanChildren ⟨r, rest, e⟩ (childReferences (heap o))) := rfl

/-! ## Mark-phase initialization facts -/

lemma ascendingElems_nodup (s : Finset Nat) : (ascendingElems s).Nodup :=
  (List.nodup_range _).filter _

lemma mem_ascendingElems (s : Finset Nat) (x : Nat) :
    x ∈ ascendingElems s ↔ x ∈ s := by
  simp only [ascendingElems, List.mem_filter, List.mem_range,
    decide_eq_true_eq]
  constructor
  · exact And.right
  · intro hx
    exact ⟨Nat.lt_succ_of_le (Finset.le_sup (f := id) hx), hx⟩

lemma rootsAscending_nodup (s : GCState) : (rootsAscending s).Nodup :=
  (ascendingElems_nodup _).filter _

lemma mem_rootsAscending (s : GCState) (x : Nat) :
    x ∈ rootsAscending s ↔ x ∈ s.allObjects ∧ 0 < s.numRootReferences x := by
  simp [rootsAscending, List.mem_filter, mem_ascendingElems]

lemma rootsAscending_toFinset (s : GCState) :
    (rootsAscending s).toFinset =
      s.allObjects.filter fun o => 0 < s.numRootReferences o := by
  ext x
  simp [mem_rootsAscending, Finset.mem_filter]

/-! ## Mark-loop invariants -/

lemma markLoop_mono (heap : Nat → ObjData) :
    ∀ (fuel : Nat) (ms : MarkState),
      ms.referencedObjects ⊆ (markLoop heap fuel ms).referencedObjects := by
  intro fuel
  induction fuel with
  | zero => intro ms; rw [markLoop_zero]
  | succ fuel ih =>
    intro ms
    obtain ⟨r, p, e⟩ := ms
    cases p with
    | nil => rw [markLoop_succ_nil]
    | cons o rest =>
      rw [markLoop_succ_cons]
      obtain ⟨news, h1, -, -, -, -, -⟩ :=
        scanChildren_spec (childReferences (heap o)) ⟨r, rest, e⟩
      refine subset_trans ?_ (ih _)
      rw [h1]
      exact Finset.subset_union_left

/-- Termination of the work-list loop: starting from a state whose reached
set lies inside the registry and whose pending objects are all reached, and
given that every declared edge stays inside the registry, the loop empties
its work list within `2*card - 2*reached + pending` iterations. -/
lemma markLoop_pending_empty (s : GCState) (hC : ClosedGraph s) :
    ∀ (fuel : Nat) (ms : MarkState),
      ms.referencedObjects ⊆ s.allObjects →
      (∀ x ∈ ms.pendingScanObjects, x ∈ ms.referencedObjects) →
      2 * (s.allObjects.card - ms.referencedObjects.card) +
        ms.pendingScanObjects.length ≤ fuel →
      (markLoop s.heap fuel ms).pendingScanObjects = [] := by
  intro fuel
  induction fuel with
  | zero =>
    intro ms _ _ hm
    have hlen : ms.pendingScanObjects.length = 0 := by omega
    rw [markLoop_zero]
    exact List.length_eq_zero.mp hlen
  | succ fuel ih =>
    intro ms hsub hpend hm
    obtain ⟨r, p, e⟩ := ms
    cases p with
    | nil => rw [markLoop_succ_nil]
    | cons o rest =>
      rw [markLoop_succ_cons]
      obtain ⟨news, h1, h2, h3, h4, h5, h6⟩ :=
        scanChildren_spec (childReferences (s.heap o)) ⟨r, rest, e⟩
      have ho : o ∈ s.allObjects := hsub (hpend o (List.mem_cons_self _ _))
      have hnewsU : ∀ x ∈ news, x ∈ s.allObjects := by
        intro x hx
        obtain ⟨hcs, -⟩ := h5 x hx
        exact hC o ho x (List.mem_filterMap.mpr ⟨some x, hcs, rfl⟩)
      have hdisj : Disjoint news.toFinset r := by
        rw [Finset.disjoint_left]
        intro x hx
        exact (h5 x (List.mem_toFinset.mp hx)).2
      have hcard :
          (scanChildren ⟨r, rest, e⟩
            (childReferences (s.heap o))).referencedObjects.card =
            r.card + news.length := by
        rw [h1, Finset.union_comm, Finset.card_union_of_disjoint hdisj,
          List.toFinset_card_of_nodup h4]
        omega
      have hsub' :
          (scanChildren ⟨r, rest, e⟩
            (childReferences (s.heap o))).referencedObjects ⊆ s.allObjects := by
        rw [h1]
        refine Finset.union_subset hsub ?_
        intro x hx
        exact hnewsU x (List.mem_toFinset.mp hx)
      have hcardU : r.card + news.length ≤ s.allObjects.card := by
        rw [← hcard]
        exact Finset.card_le_card hsub'
      apply ih
      · exact hsub'
      · intro x hx
        rw [h2] at hx
        rcases List.mem_append.mp hx with h | h
        · rw [h1]
          exact Finset.mem_union_right _ (List.mem_toFinset.mpr h)
        · rw [h1]
          exact Finset.mem_union_left _ (hpend x (List.mem_cons_of_mem _ h))
      · rw [h2, hcard]
        simp only [List.length_append, List.length_cons] at *
        omega

/-- Soundness of marking: every object the loop ever puts in the reached set
is reachable from the initially-reached objects. -/
lemma markLoop_sound (s : GCState) :
    ∀ (fuel : Nat) (ms : MarkState),
      (∀ x ∈ ms.referencedObjects, Reaches s x) →
      (∀ x ∈ ms.pendingScanObjects, x ∈ ms.referencedObjects) →
      ∀ x ∈ (markLoop s.heap fuel ms).referencedObjects, Reaches s x := by
  intro fuel
  induction fuel with
  | zero =>
    intro ms href _ x hx
    rw [markLoop_zero] at hx
    exact href x hx
  | succ fuel ih =>
    intro ms href hpend
    obtain ⟨r, p, e⟩ := ms
    cases p with
    | nil =>
      rw [markLoop_succ_nil]
      exact href
    | cons o rest =>
      rw [markLoop_succ_cons]
      obtain ⟨news, h1, h2, h3, h4, h5, h6⟩ :=
        scanChildren_spec (childReferences (s.heap o)) ⟨r, rest, e⟩
      have ho : Reaches s o := href o (hpend o (List.mem_cons_self _ _))
      apply ih
      · intro x hx
        rw [h1] at hx
        rcases Finset.mem_union.mp hx with h | h
        · exact href x h
        · obtain ⟨hcs, -⟩ := h5 x (List.mem_toFinset.mp h)
          exact Reaches.step o x ho hcs
      · intro x hx
        rw [h2] at hx
        rcases List.mem_append.mp hx with h | h
        · rw [h1]
          exact Finset.mem_union_right _ (List.mem_toFinset.mpr h)
        · rw [h1]
          exact Finset.mem_union_left _ (hpend x (List.mem_cons_of_mem _ h))

/-- Scan invariant: every reached object is either still pending or all of
its non-null children are already reached.  When the loop exhausts the work
list this makes the reached set closed under declared edges. -/
lemma markLoop_scanInv (s : GCState) :
    ∀ (fuel : Nat) (ms : MarkState),
      (∀ x ∈ ms.referencedObjects, x ∈ ms.pendingScanObjects ∨
        ∀ c : Nat, some c ∈ childReferences (s.heap x) →
          c ∈ ms.referencedObjects) →
      ∀ x ∈ (markLoop s.heap fuel ms).referencedObjects,
        x ∈ (markLoop s.heap fuel ms).pendingScanObjects ∨
        ∀ c : Nat, some c ∈ childReferences (s.heap x) →
          c ∈ (markLoop s.heap fuel ms).referencedObjects := by
  intro fuel
  induction fuel with
  | zero =>
    intro ms hinv
    rw [markLoop_zero]
    exact hinv
  | succ fuel ih =>
    intro ms hinv
    obtain ⟨r, p, e⟩ := ms
    cases p with
    | nil =>
      rw [markLoop_succ_nil]
      exact hinv
    | cons o rest =>
      rw [markLoop_succ_cons]
      obtain ⟨news, h1, h2, h3, h4, h5, h6⟩ :=
        scanChildren_spec (childReferences (s.heap o)) ⟨r, rest, e⟩
      apply ih
      intro x hx
      rw [h1] at hx
      rcases Finset.mem_union.mp hx with hxr | hxn
      · rcases hinv x hxr with hp | hcl
        · rcases List.mem_cons.mp hp with hxo | hxrest
          · subst hxo
            right
            intro c hc
            exact h6 c hc
          · left
            rw [h2]
            exact List.mem_append.mpr (Or.inr hxrest)
        · right
          intro c hc
          rw [h1]
          exact Finset.mem_union_left _ (hcl c hc)
      · left
        rw [h2]
        exact List.mem_append.mpr (Or.inl (List.mem_toFinset.mp hxn))

/-- Ghost-trace invariant: the enqueue order never repeats an object and
enumerates exactly the reached set. -/
lemma markLoop_enq (s : GCState) :
    ∀ (fuel : Nat) (ms : MarkState),
      ms.enqueuedOrder.Nodup →
      ms.enqueuedOrder.toFinset = ms.referencedObjects →
      (markLoop s.heap fuel ms).enqueuedOrder.Nodup ∧
        (markLoop s.heap fuel ms).enqueuedOrder.toFinset =
          (markLoop s.heap fuel ms).referencedObjects := by
  intro fuel
  induction fuel with
  | zero =>
    intro ms hnd hfs
    rw [markLoop_zero]
    exact ⟨hnd, hfs⟩
  | succ fuel ih =>
    intro ms hnd hfs
    obtain ⟨r, p, e⟩ := ms
    cases p with
    | nil =>
      rw [markLoop_succ_nil]
      exact ⟨hnd, hfs⟩
    | cons o rest =>
      rw [markLoop_succ_cons]
      obtain ⟨news, h1, h2, h3, h4, h5, h6⟩ :=
        scanChildren_spec (childReferences (s.heap o)) ⟨r, rest, e⟩
      apply ih
      · rw [h3]
        refine hnd.append (by simpa using h4) ?_
        intro a ha hb
        have har : a ∈ r := by
          have hmem := List.mem_toFinset.mpr ha
          rw [hfs] at hmem
          exact hmem
        have : a ∈ news := List.mem_reverse.mp hb
        exact (h5 a this).2 har
      · rw [h3, h1, List.toFinset_append, List.toFinset_reverse, hfs]

/-! ## The reached set is exactly the reachability closure of the roots -/

lemma initMark_sub (s : GCState) :
    (initMark s).referencedObjects ⊆ s.allObjects := Finset.filter_subset _ _

lemma initMark_pend (s : GCState) :
    ∀ x ∈ (initMark s).pendingScanObjects,
      x ∈ (initMark s).referencedObjects := by
  intro x hx
  have hmem : x ∈ rootsAscending s := List.mem_reverse.mp hx
  have := (mem_rootsAscending s x).mp hmem
  exact Finset.mem_filter.mpr this

lemma initMark_card :
    ∀ s : GCState, (initMark s).pendingScanObjects.length =
      (initMark s).referencedObjects.card := by
  intro s
  have hnd := rootsAscending_nodup s
  have hlen : (rootsAscending s).toFinset.card = (rootsAscending s).length :=
    List.toFinset_card_of_nodup hnd
  have : (initMark s).pendingScanObjects.length = (rootsAscending s).length := by
    simp [initMark]
  rw [this, ← hlen, rootsAscending_toFinset]
  rfl

/-- When every edge stays inside the registry, `collectFuel` iterations are
enough: the work list is empty when `markLoop` returns. -/
lemma markReached_pending_empty (s : GCState) (hC : ClosedGraph s) :
    (markReached s).pendingScanObjects = [] := by
  apply markLoop_pending_empty s hC (collectFuel s) (initMark s)
    (initMark_sub s) (initMark_pend s)
  have hR : (initMark s).referencedObjects.card ≤ s.allObjects.card :=
    Finset.card_le_card (initMark_sub s)
  have hlen := initMark_card s
  unfold collectFuel
  omega

/-- In a closed graph every reachable object is a registered object. -/
lemma Reaches_mem (s : GCState) (hC : ClosedGraph s) {x : Nat}
    (h : Reaches s x) : x ∈ s.allObjects := by
  induction h with
  | root o ho _ => exact ho
  | step p c hp hc ih =>
    exact hC p ih c (List.mem_filterMap.mpr ⟨some c, hc, rfl⟩)

/-- The mark phase computes exactly the reachability closure of the objects
whose root counter was positive when the collection began. -/
lemma mem_markReached (s : GCState) (hC : ClosedGraph s) (x : Nat) :
    x ∈ (markReached s).referencedObjects ↔ Reaches s x := by
  constructor
  · intro hx
    refine markLoop_sound s (collectFuel s) (initMark s) ?_ (initMark_pend s)
      x hx
    intro y hy
    have := Finset.mem_filter.mp hy
    exact Reaches.root y this.1 this.2
  · intro h
    have hroots : ∀ y, y ∈ s.allObjects → 0 < s.numRootReferences y →
        y ∈ (markReached s).referencedObjects := by
      intro y hy hry
      exact markLoop_mono s.heap (collectFuel s) (initMark s)
        (Finset.mem_filter.mpr ⟨hy, hry⟩)
    have hinit : ∀ y ∈ (initMark s).referencedObjects,
        y ∈ (initMark s).pendingScanObjects ∨
        ∀ c : Nat, some c ∈ childReferences (s.heap y) →
          c ∈ (initMark s).referencedObjects := by
      intro y hy
      left
      have := Finset.mem_filter.mp hy
      exact List.mem_reverse.mpr ((mem_rootsAscending s y).mpr this)
    have hscan := markLoop_scanInv s (collectFuel s) (initMark s) hinit
    have hpend := markReached_pending_empty s hC
    have hclosed : ∀ y ∈ (markReached s).referencedObjects,
        ∀ c : Nat, some c ∈ childReferences (s.heap y) →
          c ∈ (markReached s).referencedObjects := by
      intro y hy
      rcases hscan y hy with hp | hcl
      · have hp2 : y ∈ (markReached s).pendingScanObjects := hp
        rw [hpend] at hp2
        exact absurd hp2 (List.not_mem_nil y)
      · exact hcl
    induction h with
    | root o ho hr => exact hroots o ho hr
    | step p c hp hc ih => exact hclosed p ih c hc

/-- After `collectGarbage`, the registry holds exactly the reachable objects. -/
lemma mem_collect_allObjects (s : GCState) (hC : ClosedGraph s) (x : Nat) :
    x ∈ (collectGarbage s).state.allObjects ↔ Reaches s x := by
  show x ∈ s.allObjects.filter _ ↔ _
  rw [Finset.mem_filter, mem_markReached s hC]
  constructor
  · exact And.right
  · intro h
    exact ⟨Reaches_mem s hC h, h⟩

/-! ## Sweep-trace facts -/

lemma garbageList_nodup (s : GCState) : (garbageList s).Nodup :=
  (ascendingElems_nodup _).filter _

lemma mem_garbageList (s : GCState) (x : Nat) :
    x ∈ garbageList s ↔
      x ∈ s.allObjects ∧ x ∉ (markReached s).referencedObjects := by
  simp [garbageList, List.mem_filter, mem_ascendingElems]

lemma count_pairs_remove (gl : List Nat) (o : Nat) :
    ((gl.flatMap fun x => [GCEvent.remove x, GCEvent.finalize x]).count
      (GCEvent.remove o)) = gl.count o := by
  induction gl with
  | nil => rfl
  | cons x gl ih =>
    rw [List.flatMap_cons, List.count_append, ih]
    by_cases hxo : x = o
    · subst hxo
      simp [List.count_cons]
      omega
    · simp [List.count_cons, hxo, Ne.symm hxo]

lemma count_pairs_finalize (gl : List Nat) (o : Nat) :
    ((gl.flatMap fun x => [GCEvent.remove x, GCEvent.finalize x]).count
      (GCEvent.finalize o)) = gl.count o := by
  induction gl with
  | nil => rfl
  | cons x gl ih =>
    rw [List.flatMap_cons, List.count_append, ih]
    by_cases hxo : x = o
    · subst hxo
      simp [List.count_cons]
      omega
    · simp [List.count_cons, hxo, Ne.symm hxo]

lemma count_pairs_destroy (gl : List Nat) (o : Nat) :
    ((gl.flatMap fun x => [GCEvent.remove x, GCEvent.finalize x]).count
      (GCEvent.destroy o)) = 0 := by
  rw [List.count_eq_zero]
  intro hmem
  rcases List.mem_flatMap.mp hmem with ⟨x, -, hx⟩
  simp at hx

lemma count_map_destroy (gl : List Nat) (o : Nat) :
    ((gl.map GCEvent.destroy).count (GCEvent.destroy o)) = gl.count o := by
  induction gl with
  | nil => rfl
  | cons x gl ih =>
    rw [List.map_cons]
    by_cases hxo : x = o
    · subst hxo
      simp [List.count_cons, ih]
    · simp [List.count_cons, ih, hxo, Ne.symm hxo]

lemma count_map_remove (gl : List Nat) (o : Nat) :
    ((gl.map GCEvent.destroy).count (GCEvent.remove o)) = 0 := by
  rw [List.count_eq_zero]
  intro hmem
  rcases List.mem_map.mp hmem with ⟨x, -, hx⟩
  simp at hx

lemma count_map_finalize (gl : List Nat) (o : Nat) :
    ((gl.map GCEvent.destroy).count (GCEvent.finalize o)) = 0 := by
  rw [List.count_eq_zero]
  intro hmem
  rcases List.mem_map.mp hmem with ⟨x, -, hx⟩
  simp at hx

lemma sweepEvents_sublist (gl : List Nat) (o : Nat) (ho : o ∈ gl) :
    [GCEvent.remove o, GCEvent.finalize o, GCEvent.destroy o].Sublist
      (sweepEvents gl) := by
  have h1 : [GCEvent.remove o, GCEvent.finalize o].Sublist
      (gl.flatMap fun x => [GCEvent.remove x, GCEvent.finalize x]) := by
    induction gl with
    | nil => cases ho
    | cons x gl ih =>
      rw [List.flatMap_cons]
      rcases List.mem_cons.mp ho with h | h
      · subst h
        exact List.sublist_append_left _ _
      · exact (ih h).trans (List.sublist_append_right _ _)
  have h2 : [GCEvent.destroy o].Sublist (gl.map GCEvent.destroy) :=
    List.singleton_sublist.mpr (List.mem_map.mpr ⟨o, ho, rfl⟩)
  exact h1.append h2

/-! ## Collection is stable under repetition -/

lemma collect_closed (s : GCState) (hC : ClosedGraph s) :
    ClosedGraph (collectGarbage s).state := by
  intro o ho c hc
  have ho' := Finset.mem_filter.mp ho
  have hR : Reaches s o := (mem_markReached s hC o).mp ho'.2
  rcases List.mem_filterMap.mp hc with ⟨a, ha, hid⟩
  have hsc : some c ∈ childReferences (s.heap o) := by
    rw [show a = some c from hid] at ha
    exact ha
  have hRc : Reaches s c := Reaches.step o c hR hsc
  exact Finset.mem_filter.mpr
    ⟨Reaches_mem s hC hRc, (mem_markReached s hC c).mpr hRc⟩

lemma collect_reaches_iff (s : GCState) (hC : ClosedGraph s) (x : Nat) :
    Reaches (collectGarbage s).state x ↔ Reaches s x := by
  constructor
  · intro h
    induction h with
    | root o ho hr =>
      have := Finset.mem_filter.mp ho
      exact Reaches.root o this.1 hr
    | step p c hp hc ih => exact Reaches.step p c ih hc
  · intro h
    induction h with
    | root o ho hr =>
      refine Reaches.root o ?_ hr
      exact Finset.mem_filter.mpr
        ⟨ho, (mem_markReached s hC o).mpr (Reaches.root o ho hr)⟩
    | step p c hp hc ih => exact Reaches.step p c ih hc

lemma collect_collect_allObjects (s : GCState) (hC : ClosedGraph s) :
    (collectGarbage (collectGarbage s).state).state.allObjects =
      (collectGarbage s).state.allObjects := by
  ext x
  rw [mem_collect_allObjects _ (collect_closed s hC) x,
    collect_reaches_iff s hC x, ← mem_collect_allObjects s hC x]

lemma collect_collect_garbage_nil (s : GCState) (hC : ClosedGraph s) :
    garbageList (collectGarbage s).state = [] := by
  rw [garbageList, List.filter_eq_nil_iff]
  intro a ha
  have haU : a ∈ (collectGarbage s).state.allObjects :=
    (mem_ascendingElems _ _).mp ha
  have hR : Reaches (collectGarbage s).state a :=
    (collect_reaches_iff s hC a).mpr ((mem_collect_allObjects s hC a).mp haU)
  simp only [decide_eq_true_eq, not_not]
  exact (mem_markReached _ (collect_closed s hC) a).mpr hR

/-! ## Root add/remove algebra -/

lemma remove_add_cancel (s : GCState) (o : Nat) :
    removeGCRoot (addGCRoot s o) o = s := by
  obtain ⟨U, h, rc⟩ := s
  simp [removeGCRoot, addGCRoot, Function.update_same, Function.update_idem,
    Function.update_eq_self]

lemma remove_add_add (s : GCState) (o : Nat) :
    removeGCRoot (addGCRoot (addGCRoot s o) o) o = addGCRoot s o := by
  obtain ⟨U, h, rc⟩ := s
  simp [removeGCRoot, addGCRoot, Function.update_same, Function.update_idem]

/-! ## Claims -/

/-- C1: for any finite object graph, after `collectGarbage` an object remains
in the registry if and only if it is reachable by some finite chain of
declared reference edges from an object whose root counter was positive at
the start of the collection. -/
theorem collect_registry_iff_reachable (s : GCState) (hC : ClosedGraph s)
    (x : Nat) : x ∈ (collectGarbage s).state.allObjects ↔ Reaches s x :=
  mem_collect_allObjects s hC x

/-- Witness for C1 at the concrete example graph. -/
theorem collect_registry_iff_reachable_w :
    1 ∈ (collectGarbage exampleState).state.allObjects ↔
      Reaches exampleState 1 :=
  collect_registry_iff_reachable exampleState (by decide) 1

/-- C5: the mark phase's work-list loop terminates on every finite closed
object graph, cyclic ones included — within `collectFuel` iterations the
work list is exhausted. -/
theorem mark_worklist_terminates (s : GCState) (hC : ClosedGraph s) :
    (markLoop s.heap (collectFuel s) (initMark s)).pendingScanObjects = [] :=
  markReached_pending_empty s hC

/-- Witness for C5 at a concrete rooted two-object cycle. -/
theorem mark_worklist_terminates_w :
    (markLoop cycleState.heap (collectFuel cycleState)
      (initMark cycleState)).pendingScanObjects = [] :=
  mark_worklist_terminates cycleState (by decide)

/-- C8: the scanning loop skips null child references (its result only
depends on the non-null children) and deduplicates: the ghost enqueue order
never repeats an object and enumerates exactly the reached set. -/
theorem mark_skips_nulls_and_dedups :
    (∀ (ms : MarkState) (cs : List (Option Nat)),
      scanChildren ms cs = scanChildren ms ((cs.filterMap id).map some)) ∧
    (∀ s : GCState,
      (markLoop s.heap (collectFuel s) (initMark s)).enqueuedOrder.Nodup ∧
      (markLoop s.heap (collectFuel s) (initMark s)).enqueuedOrder.toFinset =
        (markLoop s.heap (collectFuel s) (initMark s)).referencedObjects) := by
  constructor
  · intro ms cs
    induction cs generalizing ms with
    | nil => rfl
    | cons hd tl ih =>
      cases hd with
      | none => exact ih ms
      | some r =>
        show scanChildren ms (some r :: tl) =
          scanChildren ms (some r :: (tl.filterMap id).map some)
        by_cases hr : r ∈ ms.referencedObjects
        · simp only [scanChildren, if_pos hr]
          exact ih ms
        · simp only [scanChildren, if_neg hr]
          exact ih _
  · intro s
    apply markLoop_enq s (collectFuel s) (initMark s) (rootsAscending_nodup s)
    exact rootsAscending_toFinset s

/-- C3: for every object, the per-kind child-reference list of the collector
has exactly the edges the spec declares for that kind (same multiset of
references). -/
theorem childReferences_matches_spec (d : ObjData) :
    (childReferences d).Perm (specDeclaredEdges d) := by
  cases d with
  | module compartment functionDefs functions tables memories globals dm dt =>
    refine List.perm_iff_count.mpr fun a => ?_
    simp only [childReferences, specDeclaredEdges, List.count_append,
      List.count_cons]
    ring
  | function m => exact List.Perm.refl _
  | table c es => exact List.Perm.refl _
  | memory c => exact List.Perm.refl _
  | global c => exact List.Perm.refl _
  | context c => exact List.Perm.refl _
  | compartment w => exact List.Perm.refl _
  | exceptionType => exact List.Perm.refl _

/-- C2 counterexample: on an object whose root counter is zero,
`removeGCRoot` completes normally and silently decrements the counter below
zero — there is no assertion and no diagnosis. -/
theorem removeGCRoot_silently_decrements :
    soloState.numRootReferences 0 = 0 ∧
    (removeGCRoot soloState 0).numRootReferences 0 = -1 ∧
    (removeGCRoot soloState 0).allObjects = soloState.allObjects := by decide

/-- C2 amended: `removeGCRoot` performs an unchecked decrement: for every
object — in particular one whose counter is zero — it completes normally,
decrementing the counter by one and leaving registry and heap untouched. -/
theorem removeGCRoot_unchecked (s : GCState) (o : Nat) :
    (removeGCRoot s o).numRootReferences o = s.numRootReferences o - 1 ∧
    (removeGCRoot s o).allObjects = s.allObjects ∧
    (removeGCRoot s o).heap = s.heap := by
  refine ⟨?_, rfl, rfl⟩
  simp [removeGCRoot]

/-- C9 counterexample: registering an already-registered object completes as
a silent no-op on the registry (`std::set::insert` with a present key), not
as a diagnosed invariant violation. -/
theorem register_duplicate_silent :
    (registerObject (registerObject emptyState 0 .exceptionType) 0
        .exceptionType).allObjects =
      (registerObject emptyState 0 .exceptionType).allObjects ∧
    0 ∈ (registerObject emptyState 0 .exceptionType).allObjects := by decide

/-- C9 amended: for an object already present in the registry, a second
`registerObject` of that object leaves the registry unchanged and completes
normally. -/
theorem register_duplicate_noop (s : GCState) (o : Nat) (d : ObjData)
    (ho : o ∈ s.allObjects) :
    (registerObject s o d).allObjects = s.allObjects := by
  simp [registerObject, Finset.insert_eq_self.mpr ho]

/-- Witness for the amended C9 at a concrete one-object registry. -/
theorem register_duplicate_noop_w :
    (registerObject (registerObject emptyState 0 .exceptionType) 0
        (.table none [])).allObjects =
      (registerObject emptyState 0 .exceptionType).allObjects :=
  register_duplicate_noop (registerObject emptyState 0 .exceptionType) 0
    (.table none []) (by decide)

/-- C10 counterexample: the root-counter mutations `addGCRoot` and
`removeGCRoot` do not acquire the registry mutex at all. -/
theorem root_mutation_takes_no_lock :
    acquiresRegistryMutex GCOp.addRootOp = false ∧
    acquiresRegistryMutex GCOp.removeRootOp = false := ⟨rfl, rfl⟩

/-- C10 amended: only object registration and `collectGarbage` acquire the
registry mutex; the root-counter mutations do not, so a root counter can
change while a collection is in progress. -/
theorem registry_mutex_profile :
    acquiresRegistryMutex GCOp.registerOp = true ∧
    acquiresRegistryMutex GCOp.collectOp = true ∧
    acquiresRegistryMutex GCOp.addRootOp = false ∧
    acquiresRegistryMutex GCOp.removeRootOp = false := ⟨rfl, rfl, rfl, rfl⟩

/-- C4: every object reclaimed by a collection appears exactly once as a
registry removal, exactly once as a finalization and exactly once as a
destruction, and those three events occur in that strict order. -/
theorem reclaimed_finalized_once_in_order (s : GCState) (o : Nat)
    (ho : o ∈ s.allObjects)
    (hg : o ∉ (collectGarbage s).state.allObjects) :
    (collectGarbage s).events.count (GCEvent.remove o) = 1 ∧
    (collectGarbage s).events.count (GCEvent.finalize o) = 1 ∧
    (collectGarbage s).events.count (GCEvent.destroy o) = 1 ∧
    [GCEvent.remove o, GCEvent.finalize o, GCEvent.destroy o].Sublist
      (collectGarbage s).events := by
  have hnr : o ∉ (markReached s).referencedObjects := by
    intro hr
    exact hg (Finset.mem_filter.mpr ⟨ho, hr⟩)
  have hmem : o ∈ garbageList s := (mem_garbageList s o).mpr ⟨ho, hnr⟩
  have hone : (garbageList s).count o = 1 :=
    List.count_eq_one_of_mem (garbageList_nodup s) hmem
  have hev : (collectGarbage s).events = sweepEvents (garbageList s) := rfl
  rw [hev]
  refine ⟨?_, ?_, ?_, sweepEvents_sublist (garbageList s) o hmem⟩
  · rw [sweepEvents, List.count_append, count_pairs_remove,
      count_map_remove, hone]
  · rw [sweepEvents, List.count_append, count_pairs_finalize,
      count_map_finalize, hone]
  · rw [sweepEvents, List.count_append, count_pairs_destroy,
      count_map_destroy, hone]

/-- Witness for C4 at a concrete one-garbage-object collection. -/
theorem reclaimed_finalized_once_in_order_w :
    (collectGarbage soloState).events.count (GCEvent.remove 0) = 1 ∧
    (collectGarbage soloState).events.count (GCEvent.finalize 0) = 1 ∧
    (collectGarbage soloState).events.count (GCEvent.destroy 0) = 1 ∧
    [GCEvent.remove 0, GCEvent.finalize 0, GCEvent.destroy 0].Sublist
      (collectGarbage soloState).events :=
  reclaimed_finalized_once_in_order soloState 0 (by decide) (by decide)

/-- C6: with no intervening mutation, a second `collectGarbage` reclaims
nothing — it leaves the registry exactly as the first collection did,
reports zero garbage and performs no sweep action. -/
theorem collect_idempotent (s : GCState) (hC : ClosedGraph s) :
    (collectGarbage (collectGarbage s).state).state.allObjects =
      (collectGarbage s).state.allObjects ∧
    (collectGarbage (collectGarbage s).state).numGarbage = 0 ∧
    (collectGarbage (collectGarbage s).state).events = [] := by
  refine ⟨collect_collect_allObjects s hC, ?_, ?_⟩
  · show (garbageList _).length = 0
    rw [collect_collect_garbage_nil s hC]
    rfl
  · show sweepEvents (garbageList _) = []
    rw [collect_collect_garbage_nil s hC]
    rfl

/-- Witness for C6 at a concrete two-object graph with one garbage object. -/
theorem collect_idempotent_w :
    (collectGarbage (collectGarbage pairState).state).state.allObjects =
      (collectGarbage pairState).state.allObjects ∧
    (collectGarbage (collectGarbage pairState).state).numGarbage = 0 ∧
    (collectGarbage (collectGarbage pairState).state).events = [] :=
  collect_idempotent pairState (by decide)

/-- C7: for an object with no incoming graph edges and a zero counter,
`addGCRoot` followed by `removeGCRoot` leaves it collectible by the next
collection, while `addGCRoot` twice followed by one `removeGCRoot` keeps it
alive. -/
theorem root_pairing (s : GCState) (o : Nat) (hC : ClosedGraph s)
    (ho : o ∈ s.allObjects) (h0 : s.numRootReferences o = 0)
    (hnoref : ∀ p ∈ s.allObjects, some o ∉ childReferences (s.heap p)) :
    o ∉ (collectGarbage
        (removeGCRoot (addGCRoot s o) o)).state.allObjects ∧
    o ∈ (collectGarbage
        (removeGCRoot (addGCRoot (addGCRoot s o) o) o)).state.allObjects := by
  constructor
  · rw [remove_add_cancel, mem_collect_allObjects s hC o]
    intro h
    cases h with
    | root o' ho' hr =>
      rw [h0] at hr
      exact absurd hr (by norm_num)
    | step p c hp hc =>
      exact hnoref p (Reaches_mem s hC hp) hc
  · rw [remove_add_add]
    have hC' : ClosedGraph (addGCRoot s o) := hC
    rw [mem_collect_allObjects (addGCRoot s o) hC' o]
    refine Reaches.root o ho ?_
    show (0 : Int) < Function.update s.numRootReferences o
      (s.numRootReferences o + 1) o
    rw [Function.update_same, h0]
    norm_num

/-- Witness for C7 at a concrete one-object graph. -/
theorem root_pairing_w :
    0 ∉ (collectGarbage
        (removeGCRoot (addGCRoot soloState 0) 0)).state.allObjects ∧
    0 ∈ (collectGarbage
        (removeGCRoot (addGCRoot (addGCRoot soloState 0) 0)
          0)).state.allObjects :=
  root_pairing soloState 0 (by decide) (by decide) (by decide) (by decide)

end WAVMGC
